import Mathlib

/-!
Shallow embedding of the agent registry of `internal/agents/registry.go`
(package `agents`), together with the `Agent` contract of
`internal/agents/agent.go`, and proofs of the specification claims about it.

Modelling conventions:
* A Go `Agent` interface value is a structure exposing the two observations
  the registry uses: `Name()` (a string) and `CanHandle(taskType)` (a pure
  boolean predicate, as the spec requires of capability providers).
* A Go `map` is modelled as an association list with pairwise-distinct keys
  (Go maps cannot hold a key twice); map reads are `List.lookup`, map writes
  replace the existing binding or append a fresh one (`setA`), `delete` is
  `eraseA`.  Go's "read of a missing key yields the zero value" for the
  `rrIdx` map is `(List.lookup t r.rrIdx).getD 0`.
* Go map iteration order is unspecified; the association list's order stands
  for one concrete iteration order of a run.
* Go string comparison `<` / `<=` is byte-wise lexicographic; on UTF-8 this
  agrees with the lexicographic order on the code-point list `String.data`,
  which is what `strLt` / `strLe` compute.
* `sort.SliceStable` with the strict comparator `name i < name j` is the
  stable sort by that comparator; it is embedded as `List.mergeSort` (a
  stable sort) with the total preorder `le a b := ¬ (b < a)`.
* Go `error` results are `Option String` (`none` = nil error); the
  `(value, ok)` returns are `Option`/`Bool` as appropriate.
-/

namespace Agents

/-- Embedding of the `Agent` interface: the registry only observes an agent's
name and its capability predicate (`Execute` is never called by the registry). -/
structure Agent where
  name : String
  canHandle : String → Bool

/-- Byte-wise lexicographic strict order on strings, as Go's `<` on `string`. -/
def strLt (s t : String) : Bool := decide (s.data < t.data)

/-- Byte-wise lexicographic order on strings, as Go's `<=` on `string`. -/
def strLe (s t : String) : Bool := decide (s.data ≤ t.data)

/-- Map write `m[k] = v` on an association list: replace the binding of `k`
if present, otherwise append it. -/
def setA {β : Type} : List (String × β) → String → β → List (String × β)
  | [], k, v => [(k, v)]
  | e :: rest, k, v => if e.1 = k then (k, v) :: rest else e :: setA rest k v

/-- Map `delete(m, k)` on an association list: drop the binding of `k`. -/
def eraseA {β : Type} : List (String × β) → String → List (String × β)
  | [], _ => []
  | e :: rest, k => if e.1 = k then rest else e :: eraseA rest k

/-- Comparator of the sort in `Register`: the stable sort by the strict
`sort.SliceStable` comparator `byType[t][i].Name() < byType[t][j].Name()`
is the stable merge sort by the complementary total preorder. -/
def nameLe (a b : Agent) : Bool := !(strLt b.name a.name)

/-- Embedding of `sort.SliceStable(r.byType[t], ...)` by agent name. -/
def sortByName (l : List Agent) : List Agent := l.mergeSort nameLe

/-- Registry state: `byName` (agent name → Agent), `byType`
(taskType → agents that can handle it), `rrIdx` (taskType → next
round-robin index).  The mutex only serialises operations and has no
observable state of its own, so it is not part of the model. -/
structure Registry where
  byName : List (String × Agent)
  byType : List (String × List Agent)
  rrIdx : List (String × Nat)

/-- `NewRegistry` creates an empty agent registry. -/
def NewRegistry : Registry := { byName := [], byType := [], rrIdx := [] }

/-- Helper of `dedupe`: the `seen` set accumulated so far. -/
def dedupeAux (seen : List String) : List String → List String
  | [] => []
  | s :: rest =>
    if s ∈ seen then dedupeAux seen rest else s :: dedupeAux (s :: seen) rest

/-- Embedding of `dedupe`: drop duplicates, keeping first occurrences. -/
def dedupe (l : List String) : List String := dedupeAux [] l

/-- Embedding of `Registry.Register`.  The Go method takes an interface value
that may be nil, hence the `Option Agent` argument; the returned
`Option String` is the Go `error` (`none` = success). -/
def Registry.Register (r : Registry) (a? : Option Agent) (taskTypes : List String) :
    Registry × Option String :=
  match a? with
  | none => (r, some "nil agent")
  | some a =>
    if a.name = "" then (r, some "agent must have a non-empty Name()")
    else if (List.lookup a.name r.byName).isSome then
      (r, some ("agent already registered: " ++ a.name))
    else
      let byName1 := setA r.byName a.name a
      let byType1 := (dedupe taskTypes).foldl
        (fun bt t =>
          if a.canHandle t then setA bt t (((List.lookup t bt).getD []) ++ [a]) else bt)
        r.byType
      let byType2 := byType1.map (fun e => (e.1, sortByName e.2))
      ({ byName := byName1, byType := byType2, rrIdx := r.rrIdx }, none)

/-- The in-place filter `for _, ag := range list { if ag.Name() != name ... }`
of `Deregister` (the `list[:0]` append idiom is a filter). -/
def removeName (name : String) (l : List Agent) : List Agent :=
  l.filter (fun ag => ag.name != name)

/-- Effect of one iteration of `Deregister`'s loop on the `byType` entry of
the visited task type: filter the list, and delete the entry when the filter
leaves nothing (`len(newList) == 0`). -/
def deregTypeEntry (name : String) (e : String × List Agent) :
    Option (String × List Agent) :=
  let nl := removeName name e.2
  if nl.length = 0 then none else some (e.1, nl)

/-- Effect of `Deregister`'s loop on an `rrIdx` entry: the loop visits task
type `e.1` with the pre-loop list `byType[e.1]` exactly when that key is in
`byType`; it deletes the cursor when the filtered list is empty, and clamps it
to `0` when `r.rrIdx[t] >= len(newList)` (a missing cursor reads as zero and
is never created, because `0 >= len(newList)` fails for non-empty `newList`,
so entries keep their identity; cursors of types not in `byType` are not
visited at all). -/
def deregIdxEntry (name : String) (bt : List (String × List Agent))
    (e : String × Nat) : Option (String × Nat) :=
  match List.lookup e.1 bt with
  | none => some e
  | some l =>
    let nl := removeName name l
    if nl.length = 0 then none
    else some (e.1, if nl.length ≤ e.2 then 0 else e.2)

/-- Embedding of `Registry.Deregister`.  The Go `for t, list := range r.byType`
loop touches, at each key `t`, only `byType[t]` and `rrIdx[t]`; since map keys
are pairwise distinct its effect is described per entry. -/
def Registry.Deregister (r : Registry) (name : String) : Registry × Bool :=
  if (List.lookup name r.byName).isSome then
    ({ byName := eraseA r.byName name,
       byType := r.byType.filterMap (deregTypeEntry name),
       rrIdx := r.rrIdx.filterMap (deregIdxEntry name r.byType) },
     true)
  else (r, false)

/-- Embedding of `Registry.Get`: the `(Agent, bool)` return is an `Option`. -/
def Registry.Get (r : Registry) (name : String) : Option Agent :=
  List.lookup name r.byName

/-- Round-robin step shared by both branches of `Select`:
`i := r.rrIdx[taskType] % len(list); a := list[i];
r.rrIdx[taskType] = (i + 1) % len(list)`. -/
def selectFrom (r : Registry) (taskType : String) (list : List Agent)
    (h : list.length ≠ 0) : Registry × Option Agent :=
  let i := ((List.lookup taskType r.rrIdx).getD 0) % list.length
  ({ r with rrIdx := setA r.rrIdx taskType ((i + 1) % list.length) },
   some (list.get ⟨i, Nat.mod_lt _ (Nat.pos_of_ne_zero h)⟩))

/-- Embedding of `Registry.Select`: round-robin over `byType[taskType]`,
with the fallback full scan of `byName` (in map-iteration order, embedded as
the association list's order) when that list is empty, caching the
discovered list in `byType` before selecting from it. -/
def Registry.Select (r : Registry) (taskType : String) : Registry × Option Agent :=
  let list := (List.lookup taskType r.byType).getD []
  if h : list.length = 0 then
    let fb := (r.byName.map Prod.snd).filter (fun a => a.canHandle taskType)
    if h2 : fb.length = 0 then (r, none)
    else selectFrom { r with byType := setA r.byType taskType fb } taskType fb h2
  else selectFrom r taskType list h

/-- Embedding of `Registry.List`: a snapshot of all registered agents,
sorted by name for stable output (on the reachable states all names are
distinct, so the unstable `sort.Slice` and the stable sort agree). -/
def Registry.ListAgents (r : Registry) : List Agent :=
  sortByName (r.byName.map Prod.snd)

/-- Ascending order by agent name, the order `Register` maintains. -/
def sortedByName (l : List Agent) : Prop :=
  List.Pairwise (fun a b => strLe a.name b.name = true) l

/-- Concrete provider handling only `"grade"`, named `"a"`; used in witnesses. -/
def agA : Agent := { name := "a", canHandle := fun t => t == "grade" }

/-- Concrete provider handling every task type, named `"b"`; used in witnesses. -/
def agB : Agent := { name := "b", canHandle := fun _ => true }

/-- Registry after `Register(agB)` then `Register(agA)` with no task types:
both agents are in the name index (in that insertion order) and no capability
index exists yet. -/
def regBA : Registry :=
  (Registry.Register (Registry.Register NewRegistry (some agB) []).1 (some agA) []).1

/-- Registry after a `Select("grade")` on `regBA`: the fallback scan has
populated the `"grade"` capability index in name-index iteration order. -/
def fbReg : Registry := (Registry.Select regBA "grade").1

/-- Registry after `Register(agA, ["grade"])` on the empty registry. -/
def regA : Registry := (Registry.Register NewRegistry (some agA) ["grade"]).1

/-- Iterated selection: `selN r t n` is the state/result after `n + 1`
sequential `Select(t)` calls starting from `r`. -/
def selN (r : Registry) (t : String) : Nat → Registry × Option Agent
  | 0 => Registry.Select r t
  | n + 1 => Registry.Select (selN r t n).1 t

/-- The capability-indexing fold of `Register`, named for reuse in lemmas. -/
def regStep (a : Agent) (bt : List (String × List Agent)) (t : String) :
    List (String × List Agent) :=
  if a.canHandle t then setA bt t (((List.lookup t bt).getD []) ++ [a]) else bt

/-- Consistency invariant tying the three indexes together. -/
structure Inv (r : Registry) : Prop where
  ndN : (r.byName.map Prod.fst).Nodup
  ndT : (r.byType.map Prod.fst).Nodup
  ndR : (r.rrIdx.map Prod.fst).Nodup
  nameKey : ∀ n a, List.lookup n r.byName = some a → a.name = n ∧ ¬n = ""
  typeName : ∀ t l, List.lookup t r.byType = some l →
    ∀ a ∈ l, List.lookup a.name r.byName = some a
  typeNonempty : ∀ t l, List.lookup t r.byType = some l → l ≠ []
  typeCan : ∀ t l, List.lookup t r.byType = some l → ∀ a ∈ l, a.canHandle t = true
  rrValid : ∀ t n, List.lookup t r.rrIdx = some n →
    ∃ l, List.lookup t r.byType = some l ∧ n < l.length

/-- States reachable from `NewRegistry` by completed registry operations
(`Get` and `List` do not change the state). -/
inductive Reachable : Registry → Prop
  | new : Reachable NewRegistry
  | register (r : Registry) (a? : Option Agent) (ts : List String) :
      Reachable r → Reachable (Registry.Register r a? ts).1
  | deregister (r : Registry) (name : String) :
      Reachable r → Reachable (Registry.Deregister r name).1
  | select (r : Registry) (t : String) :
      Reachable r → Reachable (Registry.Select r t).1

/-! ### Association-list lemmas (maps with distinct keys) -/

theorem beq_false_of_ne {a b : String} (h : ¬a = b) : (a == b) = false := by
  simp [beq_eq_false_iff_ne, h]

theorem lookup_setA {β : Type} (l : List (String × β)) (k k' : String) (v : β) :
    List.lookup k' (setA l k v) = if k' = k then some v else List.lookup k' l := by
  induction l with
  | nil =>
    by_cases h : k' = k
    · simp [setA, List.lookup, h]
    · simp [setA, List.lookup, beq_false_of_ne h, h]
  | cons e rest ih =>
    obtain ⟨ek, ev⟩ := e
    simp only [setA]
    by_cases he : ek = k
    · rw [if_pos he]
      by_cases h : k' = k
      · simp [List.lookup, h, ← he]
      · simp [List.lookup, beq_false_of_ne h, h,
          beq_false_of_ne (he ▸ h : ¬k' = ek)]
    · rw [if_neg he]
      by_cases h : k' = ek
      · have hk : ¬k' = k := fun hc => he (h ▸ hc)
        simp [List.lookup, h, hk, he]
      · simp [List.lookup, beq_false_of_ne h, ih]

theorem keys_setA {β : Type} (l : List (String × β)) (k : String) (v : β) :
    (setA l k v).map Prod.fst = l.map Prod.fst ++ [k] ∨
      (setA l k v).map Prod.fst = l.map Prod.fst := by
  induction l with
  | nil => left; simp [setA]
  | cons e rest ih =>
    by_cases he : e.1 = k
    · right; simp [setA, he]
    · rcases ih with h | h
      · left; simp [setA, he, h]
      · right; simp [setA, he, h]

theorem nodup_keys_setA {β : Type} {l : List (String × β)} {k : String} (v : β)
    (hnd : (l.map Prod.fst).Nodup) : ((setA l k v).map Prod.fst).Nodup := by
  induction l with
  | nil => simp [setA]
  | cons e rest ih =>
    obtain ⟨ek, ev⟩ := e
    simp only [List.map_cons, List.nodup_cons] at hnd
    by_cases he : ek = k
    · simp only [setA, if_pos he, List.map_cons, List.nodup_cons]
      exact ⟨he ▸ hnd.1, hnd.2⟩
    · simp only [setA, if_neg he, List.map_cons, List.nodup_cons]
      refine ⟨?_, ih hnd.2⟩
      intro hc
      rcases keys_setA rest k v with hkeys | hkeys <;> rw [hkeys] at hc
      · rcases List.mem_append.mp hc with hc1 | hc1
        · exact hnd.1 hc1
        · simp at hc1
          exact he hc1
      · exact hnd.1 hc

theorem lookup_eraseA_ne {β : Type} (l : List (String × β)) (k k' : String)
    (h : ¬k' = k) : List.lookup k' (eraseA l k) = List.lookup k' l := by
  induction l with
  | nil => simp [eraseA]
  | cons e rest ih =>
    obtain ⟨ek, ev⟩ := e
    simp only [eraseA]
    by_cases he : ek = k
    · rw [if_pos he]
      have : ¬k' = ek := fun hc => h (he ▸ hc)
      simp [List.lookup, beq_false_of_ne this]
    · rw [if_neg he]
      by_cases h2 : k' = ek
      · simp [List.lookup, h2]
      · simp [List.lookup, beq_false_of_ne h2, ih]

theorem keys_eraseA_sublist {β : Type} (l : List (String × β)) (k : String) :
    ((eraseA l k).map Prod.fst).Sublist (l.map Prod.fst) := by
  induction l with
  | nil => simp [eraseA]
  | cons e rest ih =>
    by_cases he : e.1 = k
    · simp only [eraseA, if_pos he, List.map_cons]
      exact List.sublist_cons_self _ _
    · simp only [eraseA, if_neg he, List.map_cons]
      exact List.Sublist.cons₂ _ ih

theorem lookup_eq_none_of_not_mem {β : Type} {l : List (String × β)} {k : String}
    (h : k ∉ l.map Prod.fst) : List.lookup k l = none := by
  induction l with
  | nil => simp
  | cons e rest ih =>
    obtain ⟨ek, ev⟩ := e
    simp only [List.map_cons, List.mem_cons] at h
    push_neg at h
    simp [List.lookup, beq_false_of_ne h.1, ih h.2]

theorem mem_keys_of_lookup {β : Type} {l : List (String × β)} {k : String} {v : β}
    (h : List.lookup k l = some v) : k ∈ l.map Prod.fst := by
  by_contra hc
  rw [lookup_eq_none_of_not_mem hc] at h
  cases h

theorem lookup_eraseA_self {β : Type} {l : List (String × β)} {k : String}
    (hnd : (l.map Prod.fst).Nodup) : List.lookup k (eraseA l k) = none := by
  induction l with
  | nil => simp [eraseA]
  | cons e rest ih =>
    obtain ⟨ek, ev⟩ := e
    simp only [List.map_cons, List.nodup_cons] at hnd
    simp only [eraseA]
    by_cases he : ek = k
    · rw [if_pos he, ← he]
      exact lookup_eq_none_of_not_mem hnd.1
    · rw [if_neg he]
      have : ¬k = ek := fun hc => he hc.symm
      simp [List.lookup, beq_false_of_ne this, ih hnd.2]

theorem mem_of_lookup {β : Type} {l : List (String × β)} {k : String} {v : β}
    (h : List.lookup k l = some v) : (k, v) ∈ l := by
  induction l with
  | nil => cases h
  | cons e rest ih =>
    obtain ⟨ek, ev⟩ := e
    by_cases hk : k = ek
    · simp only [List.lookup, hk, beq_self_eq_true] at h
      simp only [Option.some.injEq] at h
      simp [hk, h]
    · simp only [List.lookup, beq_false_of_ne hk] at h
      exact List.mem_cons_of_mem _ (ih h)

theorem lookup_of_mem_nodup {β : Type} {l : List (String × β)} {k : String} {v : β}
    (hnd : (l.map Prod.fst).Nodup) (h : (k, v) ∈ l) : List.lookup k l = some v := by
  induction l with
  | nil => cases h
  | cons e rest ih =>
    obtain ⟨ek, ev⟩ := e
    simp only [List.map_cons, List.nodup_cons] at hnd
    rcases List.mem_cons.mp h with h1 | h1
    · obtain ⟨hk, hv⟩ := Prod.mk.injEq .. ▸ h1
      simp [List.lookup, hk, hv]
    · have hk : ¬k = ek := by
        intro hc
        apply hnd.1
        rw [← hc]
        exact List.mem_map_of_mem Prod.fst h1
      simp [List.lookup, beq_false_of_ne hk, ih hnd.2 h1]

theorem keys_filterMap_sublist {β γ : Type} (f : String × β → Option (String × γ))
    (hf : ∀ e e', f e = some e' → e'.1 = e.1) (l : List (String × β)) :
    ((l.filterMap f).map Prod.fst).Sublist (l.map Prod.fst) := by
  induction l with
  | nil => simp
  | cons e rest ih =>
    rcases he : f e with _ | e'
    · simp only [List.filterMap_cons, he, List.map_cons]
      exact ih.trans (List.sublist_cons_self _ _)
    · simp only [List.filterMap_cons, he, List.map_cons]
      rw [hf e e' he]
      exact List.Sublist.cons₂ _ ih

theorem lookup_filterMap {β γ : Type} (f : String × β → Option (String × γ))
    (hf : ∀ e e', f e = some e' → e'.1 = e.1) {l : List (String × β)}
    (hnd : (l.map Prod.fst).Nodup) (t : String) :
    List.lookup t (l.filterMap f) =
      (List.lookup t l).bind (fun v => (f (t, v)).map Prod.snd) := by
  induction l with
  | nil => simp
  | cons e rest ih =>
    obtain ⟨ek, ev⟩ := e
    simp only [List.map_cons, List.nodup_cons] at hnd
    by_cases ht : t = ek
    · subst ht
      have hrest : List.lookup t (rest.filterMap f) = none := by
        apply lookup_eq_none_of_not_mem
        intro hc
        exact hnd.1 ((keys_filterMap_sublist f hf rest).mem hc)
      rcases he : f (t, ev) with _ | e'
      · simp [List.filterMap_cons, he, List.lookup, hrest]
      · have hkey : e'.1 = t := hf _ e' he
        obtain ⟨k1, v1⟩ := e'
        simp only at hkey
        simp [List.filterMap_cons, he, List.lookup, hkey]
    · rcases he : f (ek, ev) with _ | e'
      · simp [List.filterMap_cons, he, List.lookup, beq_false_of_ne ht, ih hnd.2]
      · have hkey : e'.1 = ek := hf _ e' he
        obtain ⟨k1, v1⟩ := e'
        simp only at hkey
        simp [List.filterMap_cons, he, List.lookup, beq_false_of_ne ht,
          hkey, ih hnd.2]

theorem lookup_mapVal {β γ : Type} (f : β → γ) (l : List (String × β)) (t : String) :
    List.lookup t (l.map (fun e => (e.1, f e.2))) = (List.lookup t l).map f := by
  induction l with
  | nil => simp
  | cons e rest ih =>
    obtain ⟨ek, ev⟩ := e
    by_cases ht : t = ek
    · simp [List.lookup, ht]
    · simp [List.lookup, beq_false_of_ne ht, ih]

/-! ### Sorting and dedupe lemmas -/

theorem nameLe_trans (a b c : Agent) (hab : nameLe a b = true) (hbc : nameLe b c = true) :
    nameLe a c = true := by
  simp only [nameLe, strLt, Bool.not_eq_true', decide_eq_false_iff_not, not_lt] at *
  exact hab.trans hbc

theorem nameLe_total (a b : Agent) : (nameLe a b || nameLe b a) = true := by
  simp only [nameLe, strLt, Bool.or_eq_true, Bool.not_eq_true', decide_eq_false_iff_not,
    not_lt]
  exact le_total a.name.data b.name.data

theorem sortByName_perm (l : List Agent) : (sortByName l).Perm l :=
  List.mergeSort_perm l nameLe

theorem mem_sortByName {a : Agent} {l : List Agent} : a ∈ sortByName l ↔ a ∈ l :=
  (sortByName_perm l).mem_iff

theorem length_sortByName (l : List Agent) : (sortByName l).length = l.length :=
  (sortByName_perm l).length_eq

theorem sorted_sortByName (l : List Agent) :
    (sortByName l).Pairwise (fun a b => nameLe a b = true) :=
  List.sorted_mergeSort nameLe_trans nameLe_total l

theorem sortByName_pair (a b : Agent) :
    sortByName [a, b] = if nameLe a b then [a, b] else [b, a] := by
  obtain ⟨l₁, l₂, h1, h2, h3⟩ :=
    List.mergeSort_cons nameLe_trans nameLe_total a [b]
  rw [List.mergeSort_singleton] at h2
  have hsorted := sorted_sortByName [a, b]
  have hres : sortByName [a, b] = l₁ ++ a :: l₂ := h1
  rcases l₁ with _ | ⟨x, l₁'⟩
  · simp only [List.nil_append] at hres
    simp only [List.nil_append] at h2
    rw [← h2] at hres
    rw [hres] at hsorted ⊢
    have hab : nameLe a b = true := by
      have := List.pairwise_cons.mp hsorted
      exact this.1 b (List.mem_singleton.mpr rfl)
    rw [if_pos hab]
  · have : x = b ∧ l₁' ++ l₂ = [] := by
      have := h2.symm
      rw [List.cons_append] at this
      exact ⟨(List.cons.injEq .. ▸ this).1, (List.cons.injEq .. ▸ this).2⟩
    obtain ⟨hx, hnil⟩ := this
    obtain ⟨hl₁, hl₂⟩ := List.append_eq_nil.mp hnil
    subst hx hl₁ hl₂
    have hba : nameLe a x = false := by
      have := h3 x (List.mem_singleton.mpr rfl)
      simpa using this
    rw [hres]
    have hab : nameLe a x ≠ true := by rw [hba]; exact Bool.false_ne_true
    have : ¬(nameLe x a = false) := by
      intro hc
      have := nameLe_total x a
      rw [hc, hba] at this
      cases this
    have hxa : nameLe x a = true := by
      rcases hna : nameLe x a with _ | _
      · exact absurd hna this
      · rfl
    simp [hba]

theorem sortByName_ne_nil {l : List Agent} (h : l ≠ []) : sortByName l ≠ [] := by
  intro hc
  apply h
  have := length_sortByName l
  rw [hc] at this
  exact List.length_eq_zero.mp this.symm

theorem dedupeAux_nodup (l : List String) : ∀ seen : List String,
    (dedupeAux seen l).Nodup ∧ ∀ s ∈ dedupeAux seen l, s ∉ seen := by
  induction l with
  | nil => intro seen; simp [dedupeAux]
  | cons s rest ih =>
    intro seen
    by_cases hs : s ∈ seen
    · simp only [dedupeAux, if_pos hs]
      exact ih seen
    · simp only [dedupeAux, if_neg hs]
      obtain ⟨hnd, hmem⟩ := ih (s :: seen)
      constructor
      · rw [List.nodup_cons]
        refine ⟨?_, hnd⟩
        intro hc
        exact hmem s hc (List.mem_cons_self _ _)
      · intro x hx hxseen
        rcases List.mem_cons.mp hx with h1 | h1
        · rw [h1] at hxseen
          exact hs hxseen
        · exact hmem x h1 (List.mem_cons_of_mem _ hxseen)

theorem dedupe_nodup (l : List String) : (dedupe l).Nodup :=
  (dedupeAux_nodup l []).1

theorem mem_dedupeAux {l : List String} {t : String} : ∀ {seen : List String},
    t ∈ dedupeAux seen l ↔ (t ∈ l ∧ t ∉ seen) := by
  induction l with
  | nil => intro seen; simp [dedupeAux]
  | cons s rest ih =>
    intro seen
    by_cases hs : s ∈ seen
    · simp only [dedupeAux, if_pos hs, List.mem_cons]
      rw [ih]
      constructor
      · exact fun h => ⟨Or.inr h.1, h.2⟩
      · rintro ⟨h1 | h1, h2⟩
        · rw [h1] at h2
          exact absurd hs h2
        · exact ⟨h1, h2⟩
    · simp only [dedupeAux, if_neg hs, List.mem_cons]
      constructor
      · rintro (h | h)
        · exact ⟨Or.inl h, h ▸ hs⟩
        · rw [ih] at h
          refine ⟨Or.inr h.1, ?_⟩
          intro hc
          exact h.2 (List.mem_cons_of_mem _ hc)
      · rintro ⟨h1 | h1, h2⟩
        · exact Or.inl h1
        · by_cases hts : t = s
          · exact Or.inl hts
          · right
            rw [ih]
            refine ⟨h1, ?_⟩
            intro hc
            rcases List.mem_cons.mp hc with hc1 | hc1
            · exact hts hc1
            · exact h2 hc1

theorem mem_dedupe {l : List String} {t : String} : t ∈ dedupe l ↔ t ∈ l := by
  rw [dedupe, mem_dedupeAux]
  simp

/-! ### Characterisation of the operations -/

theorem register_unfold (r : Registry) (a : Agent) (ts : List String)
    (hname : ¬a.name = "") (hdup : List.lookup a.name r.byName = none) :
    Registry.Register r (some a) ts =
      ({ byName := setA r.byName a.name a,
         byType := ((dedupe ts).foldl (regStep a) r.byType).map
           (fun e => (e.1, sortByName e.2)),
         rrIdx := r.rrIdx }, none) := by
  simp only [Registry.Register, hname, hdup, Option.isSome_none, Bool.false_eq_true,
    if_false, if_neg hname]
  rfl

theorem lookup_regFold (a : Agent) :
    ∀ (ts : List String), ts.Nodup → ∀ (bt : List (String × List Agent)) (t : String),
    List.lookup t (ts.foldl (regStep a) bt) =
      if t ∈ ts ∧ a.canHandle t = true
      then some (((List.lookup t bt).getD []) ++ [a])
      else List.lookup t bt := by
  intro ts
  induction ts with
  | nil =>
    intro _ bt t
    simp
  | cons u rest ih =>
    intro hnd bt t
    obtain ⟨hu, hndr⟩ := List.nodup_cons.mp hnd
    simp only [List.foldl_cons]
    by_cases htu : t = u
    · subst htu
      rw [ih hndr _ t]
      have htr : t ∉ rest := hu
      simp only [htr, false_and, if_false, List.mem_cons, true_or, true_and]
      by_cases hc : a.canHandle t = true
      · simp [regStep, hc, lookup_setA]
      · simp only [Bool.not_eq_true] at hc
        simp [regStep, hc]
    · rw [ih hndr _ t]
      have hbt : List.lookup t (regStep a bt u) = List.lookup t bt := by
        by_cases hc : a.canHandle u = true
        · simp [regStep, hc, lookup_setA, htu]
        · simp only [Bool.not_eq_true] at hc
          simp [regStep, hc]
      rw [hbt]
      simp [List.mem_cons, htu]

theorem nodup_keys_regFold (a : Agent) :
    ∀ (ts : List String) (bt : List (String × List Agent)),
    (bt.map Prod.fst).Nodup → ((ts.foldl (regStep a) bt).map Prod.fst).Nodup := by
  intro ts
  induction ts with
  | nil => intro bt h; exact h
  | cons u rest ih =>
    intro bt h
    simp only [List.foldl_cons]
    apply ih
    by_cases hc : a.canHandle u = true
    · simp only [regStep, hc, if_true]
      exact nodup_keys_setA _ h
    · simp only [Bool.not_eq_true] at hc
      simp [regStep, hc, h]

theorem register_byType (r : Registry) (a : Agent) (ts : List String)
    (hname : ¬a.name = "") (hdup : List.lookup a.name r.byName = none) (t : String) :
    List.lookup t (Registry.Register r (some a) ts).1.byType =
      (if t ∈ dedupe ts ∧ a.canHandle t = true
       then some (((List.lookup t r.byType).getD []) ++ [a])
       else List.lookup t r.byType).map sortByName := by
  rw [register_unfold r a ts hname hdup]
  simp only
  rw [lookup_mapVal, lookup_regFold a (dedupe ts) (dedupe_nodup ts)]

theorem inv_new : Inv NewRegistry := by
  constructor <;> simp [NewRegistry]

theorem keys_mapVal {β γ : Type} (f : β → γ) (l : List (String × β)) :
    (l.map (fun e => (e.1, f e.2))).map Prod.fst = l.map Prod.fst := by
  induction l with
  | nil => rfl
  | cons e rest ih => simp [ih]

theorem register_mem_byType (r : Registry) (a : Agent) (ts : List String)
    (hname : ¬a.name = "") (hdup : List.lookup a.name r.byName = none)
    {t : String} {l : List Agent} {b : Agent}
    (h : List.lookup t (Registry.Register r (some a) ts).1.byType = some l)
    (hb : b ∈ l) :
    (b = a ∧ t ∈ dedupe ts ∧ a.canHandle t = true) ∨
      (∃ l₀, List.lookup t r.byType = some l₀ ∧ b ∈ l₀) := by
  rw [register_byType r a ts hname hdup t] at h
  by_cases hcond : t ∈ dedupe ts ∧ a.canHandle t = true
  · rw [if_pos hcond] at h
    simp only [Option.map_some', Option.some.injEq] at h
    rw [← h] at hb
    rw [mem_sortByName] at hb
    rcases List.mem_append.mp hb with hb1 | hb1
    · rcases hbt : List.lookup t r.byType with _ | l₀
      · rw [hbt] at hb1
        cases hb1
      · right
        rw [hbt] at hb1
        exact ⟨l₀, rfl, hb1⟩
    · left
      exact ⟨List.mem_singleton.mp hb1, hcond⟩
  · rw [if_neg hcond] at h
    rcases Option.map_eq_some'.mp h with ⟨l₀, hl₀, hsort⟩
    right
    refine ⟨l₀, hl₀, ?_⟩
    rw [← hsort] at hb
    exact mem_sortByName.mp hb

theorem inv_register (r : Registry) (a? : Option Agent) (ts : List String)
    (hinv : Inv r) : Inv (Registry.Register r a? ts).1 := by
  match a? with
  | none => exact hinv
  | some a =>
    by_cases hname : a.name = ""
    · simp only [Registry.Register, if_pos hname]
      exact hinv
    · rcases hdup : List.lookup a.name r.byName with _ | b
      · have hbN : ∀ n c, List.lookup n (setA r.byName a.name a) = some c →
            (n = a.name ∧ c = a) ∨ (¬n = a.name ∧ List.lookup n r.byName = some c) := by
          intro n c hc
          rw [lookup_setA] at hc
          by_cases hn : n = a.name
          · rw [if_pos hn] at hc
            exact Or.inl ⟨hn, (Option.some.injEq .. ▸ hc).symm⟩
          · rw [if_neg hn] at hc
            exact Or.inr ⟨hn, hc⟩
        have hmemfresh : ∀ b : Agent, List.lookup b.name r.byName = some b →
            ¬b.name = a.name := by
          intro b hbb hc
          rw [hc, hdup] at hbb
          cases hbb
        refine ⟨?_, ?_, ?_, ?_, ?_, ?_, ?_, ?_⟩
        ·
          rw [register_unfold r a ts hname hdup]
          exact nodup_keys_setA a hinv.ndN
        ·
          rw [register_unfold r a ts hname hdup]
          simp only
          rw [keys_mapVal]
          exact nodup_keys_regFold a _ _ hinv.ndT
        ·
          rw [register_unfold r a ts hname hdup]
          exact hinv.ndR
        ·
          intro n c hc
          rw [register_unfold r a ts hname hdup] at hc
          rcases hbN n c hc with ⟨hn, hca⟩ | ⟨hn, hold⟩
          · rw [hca, hn]
            exact ⟨rfl, hn ▸ hname⟩
          · exact hinv.nameKey n c hold
        ·
          intro t l h b hb
          rw [register_unfold r a ts hname hdup]
          simp only
          rw [lookup_setA]
          rcases register_mem_byType r a ts hname hdup h hb with ⟨hba, _⟩ | ⟨l₀, hl₀, hbl₀⟩
          · rw [hba, if_pos rfl]
          · have hold := hinv.typeName t l₀ hl₀ b hbl₀
            rw [if_neg (hmemfresh b hold)]
            exact hold
        ·
          intro t l h
          rw [register_byType r a ts hname hdup t] at h
          by_cases hcond : t ∈ dedupe ts ∧ a.canHandle t = true
          · rw [if_pos hcond] at h
            simp only [Option.map_some', Option.some.injEq] at h
            rw [← h]
            apply sortByName_ne_nil
            simp
          · rw [if_neg hcond] at h
            rcases Option.map_eq_some'.mp h with ⟨l₀, hl₀, hsort⟩
            rw [← hsort]
            exact sortByName_ne_nil (hinv.typeNonempty t l₀ hl₀)
        ·
          intro t l h b hb
          rcases register_mem_byType r a ts hname hdup h hb with ⟨hba, _, hcan⟩ | ⟨l₀, hl₀, hbl₀⟩
          · rw [hba]
            exact hcan
          · exact hinv.typeCan t l₀ hl₀ b hbl₀
        ·
          intro t n hn
          rw [register_unfold r a ts hname hdup] at hn
          simp only at hn
          obtain ⟨l₀, hl₀, hlen⟩ := hinv.rrValid t n hn
          rw [register_byType r a ts hname hdup t]
          by_cases hcond : t ∈ dedupe ts ∧ a.canHandle t = true
          · rw [if_pos hcond]
            refine ⟨sortByName (((List.lookup t r.byType).getD []) ++ [a]), by simp, ?_⟩
            rw [length_sortByName, hl₀]
            simp only [Option.getD_some, List.length_append, List.length_singleton]
            omega
          · rw [if_neg hcond, hl₀]
            refine ⟨sortByName l₀, by simp, ?_⟩
            rw [length_sortByName]
            exact hlen
      · simp only [Registry.Register, if_neg hname, hdup, Option.isSome_some, if_pos rfl]
        exact hinv

theorem selectFrom_fst (r : Registry) (t : String) (list : List Agent)
    (h : list.length ≠ 0) :
    (selectFrom r t list h).1 =
      { r with rrIdx := (setA r.rrIdx t
          (((((List.lookup t r.rrIdx).getD 0) % list.length) + 1) % list.length)) } :=
  rfl

theorem inv_selectFrom (r : Registry) (hinv : Inv r) (t : String) (list : List Agent)
    (h : list.length ≠ 0) (hl : List.lookup t r.byType = some list) :
    Inv (selectFrom r t list h).1 := by
  rw [selectFrom_fst]
  refine ⟨hinv.ndN, hinv.ndT, nodup_keys_setA _ hinv.ndR, hinv.nameKey,
    hinv.typeName, hinv.typeNonempty, hinv.typeCan, ?_⟩
  intro t' n hn
  simp only at hn
  rw [lookup_setA] at hn
  by_cases ht' : t' = t
  · rw [if_pos ht'] at hn
    cases hn
    exact ⟨list, ht' ▸ hl, Nat.mod_lt _ (Nat.pos_of_ne_zero h)⟩
  · rw [if_neg ht'] at hn
    exact hinv.rrValid t' n hn

theorem inv_fallback (r : Registry) (hinv : Inv r) (t : String)
    (hbt : List.lookup t r.byType = none) (fb : List Agent)
    (hfbv : fb = (r.byName.map Prod.snd).filter (fun a => a.canHandle t))
    (hfb : fb.length ≠ 0) :
    Inv { r with byType := setA r.byType t fb } := by
  have hrr : List.lookup t r.rrIdx = none := by
    rcases hr : List.lookup t r.rrIdx with _ | n
    · rfl
    · obtain ⟨l₀, hl₀, _⟩ := hinv.rrValid t n hr
      rw [hbt] at hl₀
      cases hl₀
  refine ⟨hinv.ndN, nodup_keys_setA _ hinv.ndT, hinv.ndR, hinv.nameKey, ?_, ?_, ?_, ?_⟩
  · intro t' l hl b hb
    simp only at hl
    rw [lookup_setA] at hl
    by_cases ht' : t' = t
    · rw [if_pos ht'] at hl
      cases hl
      rw [hfbv] at hb
      obtain ⟨hbmem, _⟩ := List.mem_filter.mp hb
      obtain ⟨p, hp, hpb⟩ := List.mem_map.mp hbmem
      have hpmem : (p.1, b) ∈ r.byName := by
        rw [← hpb]
        exact hp
      have hlook := lookup_of_mem_nodup hinv.ndN hpmem
      have hkey := (hinv.nameKey p.1 b hlook).1
      rw [hkey]
      exact hlook
    · rw [if_neg ht'] at hl
      exact hinv.typeName t' l hl b hb
  · intro t' l hl
    simp only at hl
    rw [lookup_setA] at hl
    by_cases ht' : t' = t
    · rw [if_pos ht'] at hl
      cases hl
      intro hc
      rw [hc] at hfb
      exact hfb rfl
    · rw [if_neg ht'] at hl
      exact hinv.typeNonempty t' l hl
  · intro t' l hl b hb
    simp only at hl
    rw [lookup_setA] at hl
    by_cases ht' : t' = t
    · rw [if_pos ht'] at hl
      cases hl
      rw [hfbv] at hb
      have := (List.mem_filter.mp hb).2
      rw [ht']
      exact this
    · rw [if_neg ht'] at hl
      exact hinv.typeCan t' l hl b hb
  · intro t' n hn
    simp only at hn
    by_cases ht' : t' = t
    · rw [ht', hrr] at hn
      cases hn
    · obtain ⟨l₀, hl₀, hlen⟩ := hinv.rrValid t' n hn
      refine ⟨l₀, ?_, hlen⟩
      simp only
      rw [lookup_setA, if_neg ht']
      exact hl₀

theorem inv_select (r : Registry) (hinv : Inv r) (t : String) :
    Inv (Registry.Select r t).1 := by
  simp only [Registry.Select]
  by_cases h : ((List.lookup t r.byType).getD []).length = 0
  · rw [dif_pos h]
    by_cases h2 : ((r.byName.map Prod.snd).filter (fun a => a.canHandle t)).length = 0
    · rw [dif_pos h2]
      exact hinv
    · rw [dif_neg h2]
      have hbt : List.lookup t r.byType = none := by
        rcases hbt : List.lookup t r.byType with _ | l₀
        · rfl
        · rw [hbt] at h
          simp only [Option.getD_some] at h
          have := hinv.typeNonempty t l₀ hbt
          rw [List.length_eq_zero] at h
          exact absurd h this
      apply inv_selectFrom _ (inv_fallback r hinv t hbt _ rfl h2)
      simp only
      rw [lookup_setA, if_pos rfl]
  · rw [dif_neg h]
    apply inv_selectFrom r hinv
    rcases hbt : List.lookup t r.byType with _ | l₀
    · rw [hbt] at h
      simp at h
    · simp

theorem deregTypeEntry_key (name : String) :
    ∀ e e', deregTypeEntry name e = some e' → e'.1 = e.1 := by
  intro e e' he
  simp only [deregTypeEntry] at he
  by_cases hc : (removeName name e.2).length = 0
  · rw [if_pos hc] at he
    cases he
  · rw [if_neg hc] at he
    cases he
    rfl

theorem deregIdxEntry_key (name : String) (bt : List (String × List Agent)) :
    ∀ e e', deregIdxEntry name bt e = some e' → e'.1 = e.1 := by
  intro e e' he
  simp only [deregIdxEntry] at he
  rcases hb : List.lookup e.1 bt with _ | l
  · rw [hb] at he
    cases he
    rfl
  · rw [hb] at he
    simp only at he
    by_cases hc : (removeName name l).length = 0
    · rw [if_pos hc] at he
      cases he
    · rw [if_neg hc] at he
      cases he
      rfl

theorem inv_deregister (r : Registry) (name : String) (hinv : Inv r) :
    Inv (Registry.Deregister r name).1 := by
  by_cases hreg : (List.lookup name r.byName).isSome = true
  case neg =>
    simp only [Registry.Deregister]
    rw [if_neg hreg]
    exact hinv
  case pos =>
    simp only [Registry.Deregister]
    rw [if_pos hreg]
    have hfT := deregTypeEntry_key name
    have hfR := deregIdxEntry_key name r.byType
    have hlookT := fun t => lookup_filterMap (deregTypeEntry name) hfT hinv.ndT t
    have hlookR := fun t =>
      lookup_filterMap (deregIdxEntry name r.byType) hfR hinv.ndR t
    refine ⟨?_, ?_, ?_, ?_, ?_, ?_, ?_, ?_⟩
    · exact (keys_eraseA_sublist r.byName name).nodup hinv.ndN
    · exact ((keys_filterMap_sublist _ hfT r.byType).nodup hinv.ndT)
    · exact ((keys_filterMap_sublist _ hfR r.rrIdx).nodup hinv.ndR)
    · intro n c hc
      simp only at hc
      by_cases hn : n = name
      · rw [hn, lookup_eraseA_self hinv.ndN] at hc
        cases hc
      · rw [lookup_eraseA_ne _ _ _ hn] at hc
        exact hinv.nameKey n c hc
    · intro t l hl b hb
      simp only at hl ⊢
      rw [hlookT t] at hl
      rcases hbt : List.lookup t r.byType with _ | l₀
      · rw [hbt] at hl
        cases hl
      · rw [hbt] at hl
        simp only [Option.some_bind, deregTypeEntry] at hl
        by_cases hc : (removeName name l₀).length = 0
        · rw [if_pos hc] at hl
          cases hl
        · rw [if_neg hc] at hl
          simp only [Option.map_some', Option.some.injEq] at hl
          rw [← hl] at hb
          obtain ⟨hbl₀, hbn⟩ := List.mem_filter.mp hb
          have hold := hinv.typeName t l₀ hbt b hbl₀
          have hbne : ¬b.name = name := by
            simpa using hbn
          rw [lookup_eraseA_ne _ _ _ hbne]
          exact hold
    · intro t l hl
      rw [hlookT t] at hl
      rcases hbt : List.lookup t r.byType with _ | l₀
      · rw [hbt] at hl
        cases hl
      · rw [hbt] at hl
        simp only [Option.some_bind, deregTypeEntry] at hl
        by_cases hc : (removeName name l₀).length = 0
        · rw [if_pos hc] at hl
          cases hl
        · rw [if_neg hc] at hl
          simp only [Option.map_some', Option.some.injEq] at hl
          rw [← hl]
          intro hnil
          rw [hnil] at hc
          exact hc rfl
    · intro t l hl b hb
      rw [hlookT t] at hl
      rcases hbt : List.lookup t r.byType with _ | l₀
      · rw [hbt] at hl
        cases hl
      · rw [hbt] at hl
        simp only [Option.some_bind, deregTypeEntry] at hl
        by_cases hc : (removeName name l₀).length = 0
        · rw [if_pos hc] at hl
          cases hl
        · rw [if_neg hc] at hl
          simp only [Option.map_some', Option.some.injEq] at hl
          rw [← hl] at hb
          exact hinv.typeCan t l₀ hbt b (List.mem_filter.mp hb).1
    · intro t n hn
      simp only at hn ⊢
      rw [hlookR t] at hn
      rcases hr : List.lookup t r.rrIdx with _ | n₀
      · rw [hr] at hn
        cases hn
      · rw [hr] at hn
        simp only [Option.some_bind, deregIdxEntry] at hn
        obtain ⟨l₀, hl₀, hlen⟩ := hinv.rrValid t n₀ hr
        rw [hl₀] at hn
        simp only at hn
        by_cases hc : (removeName name l₀).length = 0
        · rw [if_pos hc] at hn
          cases hn
        · rw [if_neg hc] at hn
          simp only [Option.map_some', Option.some.injEq] at hn
          refine ⟨removeName name l₀, ?_, ?_⟩
          · rw [hlookT t, hl₀]
            simp only [Option.some_bind, deregTypeEntry]
            rw [if_neg hc]
            simp
          · rw [← hn]
            by_cases hclamp : (removeName name l₀).length ≤ n₀
            · rw [if_pos hclamp]
              omega
            · rw [if_neg hclamp]
              omega

theorem reachable_inv {r : Registry} (h : Reachable r) : Inv r := by
  induction h with
  | new => exact inv_new
  | register r a? ts _ ih => exact inv_register r a? ts ih
  | deregister r name _ ih => exact inv_deregister r name ih
  | select r t _ ih => exact inv_select r ih t

/-! ### Order bridging lemmas and concrete fixtures -/

theorem strLe_of_nameLe {a b : Agent} (h : nameLe a b = true) :
    strLe a.name b.name = true := by
  simp only [nameLe, strLt, Bool.not_eq_true', decide_eq_false_iff_not, not_lt] at h
  simpa [strLe] using h

theorem sortedByName_sortByName (l : List Agent) : sortedByName (sortByName l) :=
  (sorted_sortByName l).imp strLe_of_nameLe

theorem strLt_of_nameLe_of_ne {a b : Agent} (h : nameLe a b = true)
    (hne : ¬a.name = b.name) : strLt a.name b.name = true := by
  simp only [nameLe, strLt, Bool.not_eq_true', decide_eq_false_iff_not, not_lt] at h
  simp only [strLt, decide_eq_true_eq]
  rcases lt_or_eq_of_le h with hlt | heq
  · exact hlt
  · exact absurd (String.ext heq) hne

theorem strLt_of_nameLe_false {a b : Agent} (h : nameLe a b = false) :
    strLt b.name a.name = true := by
  simp only [nameLe, Bool.not_eq_false'] at h
  exact h

theorem reach_regBA : Reachable regBA :=
  Reachable.register (Registry.Register NewRegistry (some agB) []).1 (some agA) []
    (Reachable.register NewRegistry (some agB) [] Reachable.new)

theorem reach_fbReg : Reachable fbReg :=
  Reachable.select regBA "grade" reach_regBA

theorem reach_regA : Reachable regA :=
  Reachable.register NewRegistry (some agA) ["grade"] Reachable.new

/-! ### The specification claims -/

/-- C1: after every completed registry operation, every agent appearing in any
capability sequence of the type index is also present in the name index under
its own name: the name index maps `a.Name()` to that registered agent. -/
theorem C1_type_index_subset_name_index {r : Registry} (hr : Reachable r)
    (t : String) (l : List Agent) (hl : List.lookup t r.byType = some l)
    (a : Agent) (ha : a ∈ l) : List.lookup a.name r.byName = some a :=
  (reachable_inv hr).typeName t l hl a ha

theorem C1_witness :
    List.lookup agA.name regA.byName = some agA :=
  C1_type_index_subset_name_index reach_regA "grade" (sortByName [agA]) (by rfl)
    agA (mem_sortByName.mpr (List.mem_singleton.mpr rfl))

/-- C2 (counterexample): the claim that a capability sequence populated by any
path — including fallback discovery in `Select` — is sorted in ascending order
by agent name fails on the code: after registering `agB` (name `"b"`) and then
`agA` (name `"a"`) with no task types, `Select("grade")` populates the
`"grade"` sequence by the fallback scan in name-index iteration order,
yielding `[agB, agA]`, which is not sorted by name. -/
theorem C2_counterexample :
    List.lookup "grade" fbReg.byType = some [agB, agA] ∧
      ¬sortedByName [agB, agA] := by
  refine ⟨by rfl, ?_⟩
  intro h
  have := (List.pairwise_cons.mp h).1 agA (List.mem_singleton.mpr rfl)
  exact absurd this (by decide)

/-- C2 (amended): every capability sequence observed after a successful
`Register` is sorted in ascending order by agent name (`Register` re-sorts
every sequence); sequences populated by `Select`'s fallback scan are in
name-index iteration order and need not be sorted until the next successful
`Register`. -/
theorem C2_register_sorted (r : Registry) (a : Agent) (ts : List String)
    (hsucc : (Registry.Register r (some a) ts).2 = none) (t : String)
    (l : List Agent)
    (hl : List.lookup t (Registry.Register r (some a) ts).1.byType = some l) :
    sortedByName l := by
  have hname : ¬a.name = "" := by
    intro hc
    simp [Registry.Register, hc] at hsucc
  have hdup : List.lookup a.name r.byName = none := by
    rcases hd : List.lookup a.name r.byName with _ | b
    · rfl
    · simp [Registry.Register, hname, hd] at hsucc
  rw [register_byType r a ts hname hdup t] at hl
  by_cases hcond : t ∈ dedupe ts ∧ a.canHandle t = true
  · rw [if_pos hcond] at hl
    simp only [Option.map_some', Option.some.injEq] at hl
    rw [← hl]
    exact sortedByName_sortByName _
  · rw [if_neg hcond] at hl
    rcases Option.map_eq_some'.mp hl with ⟨l₀, _, hsort⟩
    rw [← hsort]
    exact sortedByName_sortByName _

theorem C2_witness : sortedByName (sortByName [agA]) :=
  C2_register_sorted NewRegistry agA ["grade"] (by rfl) "grade"
    (sortByName [agA]) (by rfl)

/-- C3: after every completed registry operation, every present capability
sequence is non-empty; every present rotation cursor is a valid index into
the sequence of its type; and for a type whose sequence is absent or empty,
no rotation cursor entry remains. -/
theorem C3_cursor_always_valid {r : Registry} (hr : Reachable r) :
    (∀ t l, List.lookup t r.byType = some l → l ≠ []) ∧
    (∀ t n, List.lookup t r.rrIdx = some n →
      ∃ l, List.lookup t r.byType = some l ∧ n < l.length) ∧
    (∀ t, (List.lookup t r.byType = none ∨ List.lookup t r.byType = some []) →
      List.lookup t r.rrIdx = none) := by
  have hinv := reachable_inv hr
  refine ⟨hinv.typeNonempty, hinv.rrValid, ?_⟩
  intro t habs
  rcases hr : List.lookup t r.rrIdx with _ | n
  · rfl
  · obtain ⟨l, hl, hlen⟩ := hinv.rrValid t n hr
    rcases habs with h | h
    · rw [h] at hl
      cases hl
    · rw [h] at hl
      cases hl
      cases hlen
  -- (the last `cases hlen` closes `n < 0`)

theorem C3_witness :
    ∃ l, List.lookup "grade" fbReg.byType = some l ∧ 1 < l.length :=
  (C3_cursor_always_valid reach_fbReg).2.1 "grade" 1 (by rfl)

/-- C10: deregistering a name that is not in the name index returns `false`
and leaves the entire registry state exactly as it was. -/
theorem C10_deregister_missing_noop (r : Registry) (name : String)
    (h : List.lookup name r.byName = none) :
    Registry.Deregister r name = (r, false) := by
  simp [Registry.Deregister, h]

theorem C10_witness : Registry.Deregister NewRegistry "x" = (NewRegistry, false) :=
  C10_deregister_missing_noop NewRegistry "x" (by rfl)

/-- C5: `Register` returns an error exactly when the agent reference is nil,
its name is empty, or the name is already in the name index; and every failed
call leaves the registry state exactly as it was. -/
theorem C5_register_error_iff (r : Registry) (a? : Option Agent) (ts : List String) :
    ((Registry.Register r a? ts).2.isSome = true ↔
      (a? = none ∨ ∃ a, a? = some a ∧
        (a.name = "" ∨ (List.lookup a.name r.byName).isSome = true))) ∧
    ((Registry.Register r a? ts).2.isSome = true →
      (Registry.Register r a? ts).1 = r) := by
  match a? with
  | none => simp [Registry.Register]
  | some a =>
    by_cases hname : a.name = ""
    · simp [Registry.Register, hname]
    · by_cases hdup : (List.lookup a.name r.byName).isSome = true
      · have heq : Registry.Register r (some a) ts =
            (r, some ("agent already registered: " ++ a.name)) := by
          simp [Registry.Register, hname, hdup]
        rw [heq]
        exact ⟨⟨fun _ => Or.inr ⟨a, rfl, Or.inr hdup⟩, fun _ => rfl⟩, fun _ => rfl⟩
      · have hdn : List.lookup a.name r.byName = none :=
          Option.not_isSome_iff_eq_none.mp hdup
        rw [register_unfold r a ts hname hdn]
        constructor
        · constructor
          · intro h
            cases h
          · rintro (h | ⟨b, hb, hcase⟩)
            · cases h
            · cases hb
              rcases hcase with h | h
              · exact absurd h hname
              · exact absurd h hdup
        · intro h
          cases h

theorem C5_witness :
    (Registry.Register regA (some agA) []).2.isSome = true :=
  (C5_register_error_iff regA (some agA) []).1.mpr
    (Or.inr ⟨agA, rfl, Or.inr (by rfl)⟩)

/-- C6: a successful `Register(a, taskTypes)` changes each capability
sequence only by appending `a` — up to the re-sort — and does so exactly for
the distinct declared types (first occurrences kept by `dedupe`) that the
agent itself confirms with `CanHandle`; declined types cause no append and no
error. -/
theorem C6_register_appends_iff_canHandle (r : Registry) (a : Agent)
    (ts : List String) (hsucc : (Registry.Register r (some a) ts).2 = none) :
    (∀ t : String,
      ((List.lookup t (Registry.Register r (some a) ts).1.byType).getD []).Perm
        (if t ∈ dedupe ts ∧ a.canHandle t = true
         then ((List.lookup t r.byType).getD []) ++ [a]
         else (List.lookup t r.byType).getD [])) ∧
    (∀ ts' : List String, (Registry.Register r (some a) ts').2 = none) := by
  have hname : ¬a.name = "" := by
    intro hc
    simp [Registry.Register, hc] at hsucc
  have hdup : List.lookup a.name r.byName = none := by
    rcases hd : List.lookup a.name r.byName with _ | b
    · rfl
    · simp [Registry.Register, hname, hd] at hsucc
  constructor
  · intro t
    rw [register_byType r a ts hname hdup t]
    by_cases hcond : t ∈ dedupe ts ∧ a.canHandle t = true
    · rw [if_pos hcond, if_pos hcond]
      simp only [Option.map_some', Option.getD_some]
      exact sortByName_perm _
    · rw [if_neg hcond, if_neg hcond]
      rcases hbt : List.lookup t r.byType with _ | l₀
      · simp
      · simp only [Option.map_some', Option.getD_some]
        exact sortByName_perm _
  · intro ts'
    rw [register_unfold r a ts' hname hdup]

theorem C6_witness :
    ((List.lookup "grade"
        (Registry.Register NewRegistry (some agA) ["grade", "grade", "x"]).1.byType).getD
      []).Perm
      (if "grade" ∈ dedupe ["grade", "grade", "x"] ∧ agA.canHandle "grade" = true
       then ((List.lookup "grade" NewRegistry.byType).getD []) ++ [agA]
       else (List.lookup "grade" NewRegistry.byType).getD []) :=
  (C6_register_appends_iff_canHandle NewRegistry agA ["grade", "grade", "x"]
    (by rfl)).1 "grade"

/-- C7: when the capability sequence for a task type is empty or absent and no
registered agent answers `CanHandle` true, `Select` returns not-found and the
registry state is exactly as before the call. -/
theorem C7_select_not_found_noop (r : Registry) (t : String)
    (h1 : (List.lookup t r.byType).getD [] = [])
    (h2 : ∀ a ∈ r.byName.map Prod.snd, a.canHandle t = false) :
    Registry.Select r t = (r, none) := by
  simp only [Registry.Select]
  have hlen : ((List.lookup t r.byType).getD []).length = 0 := by
    rw [h1]
    rfl
  rw [dif_pos hlen]
  have hfb : (r.byName.map Prod.snd).filter (fun a => a.canHandle t) = [] := by
    apply List.filter_eq_nil_iff.mpr
    intro a ha
    rw [h2 a ha]
    exact Bool.false_ne_true
  rw [dif_pos (by rw [hfb]; rfl)]

theorem C7_witness :
    Registry.Select (Registry.Register NewRegistry (some agA) []).1 "z" =
      ((Registry.Register NewRegistry (some agA) []).1, none) :=
  C7_select_not_found_noop (Registry.Register NewRegistry (some agA) []).1 "z"
    (by rfl)
    (by
      intro a ha
      simp only [agA] at ha ⊢
      have : a = agA := by
        simpa [Registry.Register, NewRegistry, setA, agA] using ha
      rw [this]
      rfl)

/-- C8: when `Deregister(name)` leaves the capability sequence of a task type
non-empty, the rotation cursor for that type is set to zero exactly when it
was at or past the new sequence length, and is left unchanged (including
"absent stays absent") otherwise. -/
theorem C8_cursor_clamp_on_shrink {r : Registry} (hr : Reachable r)
    (name t : String) (hreg : (List.lookup name r.byName).isSome = true)
    (l : List Agent) (hl : List.lookup t r.byType = some l)
    (hne : (removeName name l).length ≠ 0) :
    List.lookup t (Registry.Deregister r name).1.rrIdx =
      if (removeName name l).length ≤ (List.lookup t r.rrIdx).getD 0
      then some 0 else List.lookup t r.rrIdx := by
  have hinv := reachable_inv hr
  simp only [Registry.Deregister]
  rw [if_pos hreg]
  simp only
  rw [lookup_filterMap (deregIdxEntry name r.byType)
    (deregIdxEntry_key name r.byType) hinv.ndR t]
  rcases hrr : List.lookup t r.rrIdx with _ | n
  · have hcond : ¬(removeName name l).length ≤ (Option.getD (α := Nat) none 0) := by
      simp only [Option.getD_none]
      omega
    rw [if_neg hcond]
    simp
  · simp only [Option.some_bind, deregIdxEntry, hl]
    rw [if_neg hne]
    simp only [Option.map_some', Option.getD_some]
    by_cases hc : (removeName name l).length ≤ n
    · rw [if_pos hc, if_pos hc]
    · rw [if_neg hc, if_neg hc]

theorem C8_witness :
    List.lookup "grade" (Registry.Deregister fbReg "b").1.rrIdx = some 0 :=
  C8_cursor_clamp_on_shrink reach_fbReg "b" "grade" (by rfl) [agB, agA]
    (by rfl) (by decide)

/-- C9: whenever `Select(taskType)` returns an agent, that agent satisfies
`CanHandle(taskType)`: both the `Register` path and the fallback-discovery
path only add agents to a capability sequence after `CanHandle` confirms the
type. -/
theorem C9_selected_can_handle {r : Registry} (hr : Reachable r) (t : String)
    (a : Agent) (h : (Registry.Select r t).2 = some a) :
    a.canHandle t = true := by
  have hinv := reachable_inv hr
  revert h
  simp only [Registry.Select]
  by_cases hlen : ((List.lookup t r.byType).getD []).length = 0
  · rw [dif_pos hlen]
    by_cases h2 : ((r.byName.map Prod.snd).filter (fun x => x.canHandle t)).length = 0
    · rw [dif_pos h2]
      intro h
      cases h
    · rw [dif_neg h2]
      intro h
      simp only [selectFrom, Option.some.injEq] at h
      have hmem : a ∈ (r.byName.map Prod.snd).filter (fun x => x.canHandle t) :=
        h ▸ List.get_mem _ _ _
      exact (List.mem_filter.mp hmem).2
  · rw [dif_neg hlen]
    intro h
    simp only [selectFrom, Option.some.injEq] at h
    have hmem : a ∈ (List.lookup t r.byType).getD [] := h ▸ List.get_mem _ _ _
    rcases hbt : List.lookup t r.byType with _ | l₀
    · rw [hbt] at hlen
      simp at hlen
    · rw [hbt] at hmem
      simp only [Option.getD_some] at hmem
      exact hinv.typeCan t l₀ hbt a hmem

theorem C9_witness : agB.canHandle "grade" = true :=
  C9_selected_can_handle reach_regBA "grade" agB (by rfl)

theorem register_two (A B : Agent) (hA : ¬A.name = "") (hB : ¬B.name = "")
    (hBA : ¬B.name = A.name) (hcA : A.canHandle "grade" = true)
    (hcB : B.canHandle "grade" = true) :
    (Registry.Register (Registry.Register NewRegistry (some A) ["grade"]).1
        (some B) ["grade"]).1 =
      { byName := [(A.name, A), (B.name, B)],
        byType := [("grade", sortByName [A, B])],
        rrIdx := [] } := by
  have hAB : ¬A.name = B.name := fun hc => hBA hc.symm
  have h1 : (Registry.Register NewRegistry (some A) ["grade"]).1 =
      { byName := [(A.name, A)], byType := [("grade", [A])], rrIdx := [] } := by
    rw [register_unfold NewRegistry A ["grade"] hA rfl]
    simp [NewRegistry, dedupe, dedupeAux, regStep, hcA, setA, sortByName,
      List.mergeSort_singleton]
  rw [h1]
  have hlookB : List.lookup B.name [(A.name, A)] = none := by
    simp [List.lookup, beq_false_of_ne hBA]
  rw [register_unfold _ B ["grade"] hB hlookB]
  simp [dedupe, dedupeAux, regStep, hcB, setA, List.lookup, hAB]

theorem get_pair (X Y : Agent) (i : Nat) (hp : i < 2) :
    [X, Y].get ⟨i, hp⟩ = if i = 0 then X else Y := by
  rcases i with _ | _ | i
  · rfl
  · rfl
  · omega

theorem select_pair (r : Registry) (t : String) (X Y : Agent) (n : Nat)
    (hbt : List.lookup t r.byType = some [X, Y])
    (hrr : (List.lookup t r.rrIdx).getD 0 = n) :
    Registry.Select r t =
      ({ r with rrIdx := setA r.rrIdx t ((n % 2 + 1) % 2) },
       some (if n % 2 = 0 then X else Y)) := by
  simp only [Registry.Select, hbt, Option.getD_some]
  rw [dif_neg (by simp : ¬(([X, Y] : List Agent).length = 0))]
  simp only [selectFrom, hrr]
  simp only [Prod.mk.injEq]
  refine ⟨rfl, ?_⟩
  rw [get_pair]
  simp only [List.length_cons, List.length_nil]

theorem selN_pair (r : Registry) (t : String) (X Y : Agent)
    (hbt : List.lookup t r.byType = some [X, Y])
    (hrr : List.lookup t r.rrIdx = none) :
    (selN r t 0).2 = some X ∧ (selN r t 1).2 = some Y ∧
      (selN r t 2).2 = some X ∧ (selN r t 3).2 = some Y := by
  have s1 := select_pair r t X Y 0 hbt (by rw [hrr]; rfl)
  have hbt1 : List.lookup t (selN r t 0).1.byType = some [X, Y] := by
    show List.lookup t (Registry.Select r t).1.byType = some [X, Y]
    rw [s1]
    exact hbt
  have hrr1 : (List.lookup t (selN r t 0).1.rrIdx).getD 0 = 1 := by
    show (List.lookup t (Registry.Select r t).1.rrIdx).getD 0 = 1
    rw [s1]
    show (List.lookup t (setA r.rrIdx t ((0 % 2 + 1) % 2))).getD 0 = 1
    rw [lookup_setA, if_pos rfl]
    rfl
  have s2 := select_pair (selN r t 0).1 t X Y 1 hbt1 hrr1
  have hbt2 : List.lookup t (selN r t 1).1.byType = some [X, Y] := by
    show List.lookup t (Registry.Select (selN r t 0).1 t).1.byType = some [X, Y]
    rw [s2]
    exact hbt1
  have hrr2 : (List.lookup t (selN r t 1).1.rrIdx).getD 0 = 0 := by
    show (List.lookup t (Registry.Select (selN r t 0).1 t).1.rrIdx).getD 0 = 0
    rw [s2]
    show (List.lookup t (setA (selN r t 0).1.rrIdx t ((1 % 2 + 1) % 2))).getD 0 = 0
    rw [lookup_setA, if_pos rfl]
    rfl
  have s3 := select_pair (selN r t 1).1 t X Y 0 hbt2 hrr2
  have hbt3 : List.lookup t (selN r t 2).1.byType = some [X, Y] := by
    show List.lookup t (Registry.Select (selN r t 1).1 t).1.byType = some [X, Y]
    rw [s3]
    exact hbt2
  have hrr3 : (List.lookup t (selN r t 2).1.rrIdx).getD 0 = 1 := by
    show (List.lookup t (Registry.Select (selN r t 1).1 t).1.rrIdx).getD 0 = 1
    rw [s3]
    show (List.lookup t (setA (selN r t 1).1.rrIdx t ((0 % 2 + 1) % 2))).getD 0 = 1
    rw [lookup_setA, if_pos rfl]
    rfl
  have s4 := select_pair (selN r t 2).1 t X Y 1 hbt3 hrr3
  refine ⟨?_, ?_, ?_, ?_⟩
  · show (Registry.Select r t).2 = some X
    rw [s1]
    rfl
  · show (Registry.Select (selN r t 0).1 t).2 = some Y
    rw [s2]
    rfl
  · show (Registry.Select (selN r t 1).1 t).2 = some X
    rw [s3]
    rfl
  · show (Registry.Select (selN r t 2).1 t).2 = some Y
    rw [s4]
    rfl

/-- C4: starting from the empty registry, registering two `"grade"`-capable
agents with distinct non-empty names and selecting `"grade"` four times
yields the two agents alternately, starting with the lexicographically
smaller name: X, Y, X, Y with `X.Name() < Y.Name()`. -/
theorem C4_two_agent_round_robin (A B : Agent) (hA : ¬A.name = "")
    (hB : ¬B.name = "") (hAB : ¬A.name = B.name)
    (hcA : A.canHandle "grade" = true) (hcB : B.canHandle "grade" = true) :
    ∃ X Y : Agent, ((X = A ∧ Y = B) ∨ (X = B ∧ Y = A)) ∧
      strLt X.name Y.name = true ∧
      (selN (Registry.Register (Registry.Register NewRegistry (some A) ["grade"]).1
          (some B) ["grade"]).1 "grade" 0).2 = some X ∧
      (selN (Registry.Register (Registry.Register NewRegistry (some A) ["grade"]).1
          (some B) ["grade"]).1 "grade" 1).2 = some Y ∧
      (selN (Registry.Register (Registry.Register NewRegistry (some A) ["grade"]).1
          (some B) ["grade"]).1 "grade" 2).2 = some X ∧
      (selN (Registry.Register (Registry.Register NewRegistry (some A) ["grade"]).1
          (some B) ["grade"]).1 "grade" 3).2 = some Y := by
  have h2 := register_two A B hA hB (fun hc => hAB hc.symm) hcA hcB
  rw [sortByName_pair A B] at h2
  rcases hle : nameLe A B with _ | _
  · rw [hle] at h2
    simp only [Bool.false_eq_true, if_false] at h2
    have hbt : List.lookup "grade" (Registry.Register
        (Registry.Register NewRegistry (some A) ["grade"]).1
        (some B) ["grade"]).1.byType = some [B, A] := by
      rw [h2]
      rfl
    have hrr : List.lookup "grade" (Registry.Register
        (Registry.Register NewRegistry (some A) ["grade"]).1
        (some B) ["grade"]).1.rrIdx = none := by
      rw [h2]
      rfl
    obtain ⟨p1, p2, p3, p4⟩ := selN_pair _ "grade" B A hbt hrr
    exact ⟨B, A, Or.inr ⟨rfl, rfl⟩, strLt_of_nameLe_false hle, p1, p2, p3, p4⟩
  · rw [if_pos hle] at h2
    have hbt : List.lookup "grade" (Registry.Register
        (Registry.Register NewRegistry (some A) ["grade"]).1
        (some B) ["grade"]).1.byType = some [A, B] := by
      rw [h2]
      rfl
    have hrr : List.lookup "grade" (Registry.Register
        (Registry.Register NewRegistry (some A) ["grade"]).1
        (some B) ["grade"]).1.rrIdx = none := by
      rw [h2]
      rfl
    obtain ⟨p1, p2, p3, p4⟩ := selN_pair _ "grade" A B hbt hrr
    exact ⟨A, B, Or.inl ⟨rfl, rfl⟩, strLt_of_nameLe_of_ne hle hAB, p1, p2, p3, p4⟩

theorem C4_witness :
    ∃ X Y : Agent, ((X = agA ∧ Y = agB) ∨ (X = agB ∧ Y = agA)) ∧
      strLt X.name Y.name = true ∧
      (selN (Registry.Register (Registry.Register NewRegistry (some agA) ["grade"]).1
          (some agB) ["grade"]).1 "grade" 0).2 = some X ∧
      (selN (Registry.Register (Registry.Register NewRegistry (some agA) ["grade"]).1
          (some agB) ["grade"]).1 "grade" 1).2 = some Y ∧
      (selN (Registry.Register (Registry.Register NewRegistry (some agA) ["grade"]).1
          (some agB) ["grade"]).1 "grade" 2).2 = some X ∧
      (selN (Registry.Register (Registry.Register NewRegistry (some agA) ["grade"]).1
          (some agB) ["grade"]).1 "grade" 3).2 = some Y :=
  C4_two_agent_round_robin agA agB (by decide) (by decide) (by decide)
    (by rfl) (by rfl)

end Agents
